import Mathlib

/-!
Verification of the frame cross-correlation / path-classification pipeline
(`implementation.py`): a shallow embedding of `correlate_adjacent_frames`,
`make_correlation_video` and `is_triangular_path`, with theorems about the
correlation surface, its quantization, the sequence builder, and the
peak-tracking turn-counting classifier.

Modelling conventions:
* a frame is a 160 x 160 grid of uint8 samples, modelled as a total function
  `Fin 160 → Fin 160 → Fin 256`;
* numpy float64 arithmetic is modelled exactly over `ℚ`; note that `ℚ`
  division by zero yields 0, a total stand-in for numpy's non-raising
  float division;
* `astype(np.uint8)` (a C cast of a float64) is modelled as truncation
  toward zero followed by wrap-around modulo 256;
* numpy 2-D arrays produced by the code are modelled as `List (List _)`
  built by the same loops, so the output shape is a provable fact.
-/

/-- A 160 x 160 frame of uint8 intensity samples. -/
abbrev Frame : Type := Fin 160 → Fin 160 → Fin 256

/-- One sample of `frame / 255`: the scaling of a frame to the range [0, 1]. -/
def scale (f : Frame) (i j : Fin 160) : ℚ :=
  ((f i j : ℕ) : ℚ) / 255

/-- Mean of all samples of a scaled frame (`np.mean(normalized_frame)`). -/
def frameMean (f : Frame) : ℚ :=
  (∑ i : Fin 160, ∑ j : Fin 160, scale f i j) / (160 * 160)

/-- The shared zero-centering scalar of `correlate_adjacent_frames`:
the average of the mean of the scaled previous frame and the mean of the
scaled current frame. -/
def average_pixel_value (p c : Frame) : ℚ :=
  (frameMean p + frameMean c) / 2

/-- One sample of a scaled frame after subtracting the shared offset `off`
(the code's `normalized_... -= np.full_like(..., average_pixel_value)`). -/
def centered (f : Frame) (off : ℚ) (i j : Fin 160) : ℚ :=
  scale f i j - off

/-- Entry `(i, j)` of the 110 x 110 kernel: the zero-centered current frame
trimmed by the margin 25 on each edge
(`normalized_current_frame[25:height-25, 25:width-25]`). -/
def convolutional_kernel (p c : Frame) (i j : Fin 110) : ℚ :=
  centered c (average_pixel_value p c)
    ⟨25 + i.1, by have := i.2; omega⟩ ⟨25 + j.1, by have := j.2; omega⟩

/-- The correlation score at offset `(r, s)`:
`np.sum(convolutional_kernel * normalized_previous_frame[r:r+110, c:c+110])`. -/
def output_score (p c : Frame) (r s : Fin 50) : ℚ :=
  ∑ i : Fin 110, ∑ j : Fin 110,
    convolutional_kernel p c i j *
      centered p (average_pixel_value p c)
        ⟨r.1 + i.1, by have := r.2; have := i.2; omega⟩
        ⟨s.1 + j.1, by have := s.2; have := j.2; omega⟩

/-- The correlation surface `output_image` as the code builds it:
`np.zeros((50, 50))` filled by the two loops `for r in range(50): for c in
range(50)` — a list of 50 rows of 50 scores. -/
def output_image (p c : Frame) : List (List ℚ) :=
  (List.finRange 50).map fun r => (List.finRange 50).map fun s => output_score p c r s

/-- Maximum of a 50 x 50 grid of scores (`output_image.max()`). -/
def gridMax (g : Fin 50 → Fin 50 → ℚ) : ℚ :=
  Finset.univ.sup' Finset.univ_nonempty (fun rc : Fin 50 × Fin 50 => g rc.1 rc.2)

/-- Minimum of a 50 x 50 grid of scores (`output_image.min()`). -/
def gridMin (g : Fin 50 → Fin 50 → ℚ) : ℚ :=
  Finset.univ.inf' Finset.univ_nonempty (fun rc : Fin 50 × Fin 50 => g rc.1 rc.2)

/-- The affine rescale `(value - min_value) * 255.0 / (max_value - min_value)`. -/
def rescaleQ (v mn mx : ℚ) : ℚ :=
  (v - mn) * 255 / (mx - mn)

/-- Truncation of a rational toward zero, the rounding a float-to-integer
C cast performs. -/
def truncQ (q : ℚ) : ℤ :=
  if 0 ≤ q then ⌊q⌋ else ⌈q⌉

/-- `astype(np.uint8)` on one sample: truncate toward zero, wrap modulo 256. -/
def toUInt8 (q : ℚ) : ℕ :=
  (truncQ q % 256).toNat

/-- Rescale and quantize a 50 x 50 grid of scores to uint8 samples. -/
def quantizeGrid (g : Fin 50 → Fin 50 → ℚ) : List (List ℕ) :=
  (List.finRange 50).map fun r => (List.finRange 50).map fun s =>
    toUInt8 (rescaleQ (g r s) (gridMin g) (gridMax g))

/-- `correlate_adjacent_frames`: the quantized correlation surface of a
previous and a current frame. -/
def correlate_adjacent_frames (p c : Frame) : List (List ℕ) :=
  quantizeGrid (output_score p c)

/-- A default frame (all samples 0), used only as the default of `List.getD`. -/
def dfltFrame : Frame := fun _ _ => 0

/-- `make_correlation_video` restricted to its core (the file I/O is an
external collaborator): correlate each pair of adjacent frames, frame `i`
as the previous and frame `i+1` as the current one. -/
def make_correlation_video : List Frame → List (List (List ℕ))
  | [] => []
  | [_] => []
  | p :: c :: rest => correlate_adjacent_frames p c :: make_correlation_video (c :: rest)

/-- Sample `(r, s)` of a quantized frame; out-of-range positions read as 0,
the way a numpy slice silently drops them from a block sum. -/
def entryAt (g : List (List ℕ)) (r s : ℕ) : ℕ :=
  (g.getD r []).getD s 0

/-- `np.sum(frame[r:r+2, c:c+2])`: the 2 x 2 block sum at top-left `(r, c)`. -/
def blockSum (g : List (List ℕ)) (r c : ℕ) : ℕ :=
  entryAt g r c + entryAt g r (c + 1) + entryAt g (r + 1) c + entryAt g (r + 1) (c + 1)

/-- The candidate top-left corners of the classifier's scan, in scan order:
`for r in range(0, 51, 4): for c in range(0, 51, 4)`. -/
def candList : List (ℕ × ℕ) :=
  ((List.range 13).map fun a => a * 4).flatMap fun r =>
    ((List.range 13).map fun a => a * 4).map fun c => (r, c)

/-- The scan for the peak of one frame: running `(max_loc, max_val)` over the
candidates, starting at `((0, 0), 0)`, replaced only by a strictly greater
block sum. -/
def scanPeak (g : List (List ℕ)) : (ℕ × ℕ) × ℕ :=
  candList.foldl
    (fun acc q => if blockSum g q.1 q.2 > acc.2 then (q, blockSum g q.1 q.2) else acc)
    ((0, 0), 0)

/-- The peak location `max_loc` the scan of one frame ends with. -/
def peak_of_frame (g : List (List ℕ)) : ℕ × ℕ :=
  (scanPeak g).1

/-- The squared Euclidean distance between two peak locations. The code
compares `sqrt((Δr)² + (Δc)²) > 20`; over integer coordinates that holds
iff `(Δr)² + (Δc)² > 400`, which is the executable form used here. -/
def distSq (a b : ℕ × ℕ) : ℤ :=
  ((a.1 : ℤ) - (b.1 : ℤ)) ^ 2 + ((a.2 : ℤ) - (b.2 : ℤ)) ^ 2

/-- The turn counter, given the previous peak location and the remaining
peak locations: a turn is counted when the distance to the next peak
exceeds the threshold, and the previous location is then updated to the
current one regardless. -/
def countTurns : ℕ × ℕ → List (ℕ × ℕ) → ℕ
  | _, [] => 0
  | prev, q :: rest => (if 400 < distSq prev q then 1 else 0) + countTurns q rest

/-- Total turns over a sequence of peak locations (the first frame only
initializes `last_max_loc`). -/
def turnCount : List (ℕ × ℕ) → ℕ
  | [] => 0
  | q :: rest => countTurns q rest

/-- The classification: triangular iff the turn counter ends at exactly 2. -/
def is_triangular_from_peaks (locs : List (ℕ × ℕ)) : Bool :=
  turnCount locs == 2

/-- `frame = f[0:50, 0:50]`: the top-left 50 x 50 region of a frame. -/
def frameSlice (g : List (List ℕ)) : List (List ℕ) :=
  (g.take 50).map fun row => row.take 50

/-- `is_triangular_path` on a list of frames (the GIF decoding is an external
collaborator): correlate adjacent frames, find each correlation frame's
peak, count turns, classify. -/
def is_triangular_path (frames : List Frame) : Bool :=
  is_triangular_from_peaks
    ((make_correlation_video frames).map fun f => peak_of_frame (frameSlice f))

/-- Modelled from the spec: the contrasting normalization the spec rules out,
"the mean of the pooled sample set" — the mean of the concatenation of all
scaled samples of both frames. -/
def pooledMean (p c : Frame) : ℚ :=
  ((∑ i : Fin 160, ∑ j : Fin 160, scale p i j) +
      (∑ i : Fin 160, ∑ j : Fin 160, scale c i j)) / (2 * (160 * 160))

/-- A constant-intensity frame. -/
def constFrame (v : Fin 256) : Frame := fun _ _ => v

/-- A concrete frame with exactly two lit pixels: 255 at (0, 0) and 1 at
(25, 25); the bright corner pixel lies outside the template region. -/
def exFrame : Frame := fun i j =>
  if i.1 = 0 ∧ j.1 = 0 then ⟨255, by norm_num⟩
  else if i.1 = 25 ∧ j.1 = 25 then ⟨1, by norm_num⟩
  else ⟨0, by norm_num⟩

/-- A concrete non-degenerate 50 x 50 score grid. -/
def exGrid : Fin 50 → Fin 50 → ℚ := fun r s =>
  if r.1 = 0 ∧ s.1 = 0 then 255 else 0

/-- A concrete two-frame video. -/
def vidEx : List Frame := [constFrame 3, constFrame 5]

/-! ## Structural helper lemmas -/

/-- Reading index `r` of a list built by mapping over `List.finRange n`
yields the function applied at `r`. -/
lemma getD_map_finRange {α : Type} {n : ℕ} (f : Fin n → α) (d : α) (r : Fin n) :
    ((List.finRange n).map f).getD r.1 d = f r := by
  have h : r.1 < ((List.finRange n).map f).length := by simp [r.2]
  rw [List.getD_eq_getElem _ _ h, List.getElem_map]
  congr 1
  apply Fin.ext
  simp

lemma output_image_getD (p c : Frame) (r s : Fin 50) :
    ((output_image p c).getD r.1 []).getD s.1 0 = output_score p c r s := by
  unfold output_image
  rw [getD_map_finRange, getD_map_finRange]

lemma quantizeGrid_entry (g : Fin 50 → Fin 50 → ℚ) (r s : Fin 50) :
    entryAt (quantizeGrid g) r.1 s.1 = toUInt8 (rescaleQ (g r s) (gridMin g) (gridMax g)) := by
  unfold entryAt quantizeGrid
  rw [getD_map_finRange, getD_map_finRange]

lemma quantizeGrid_length (g : Fin 50 → Fin 50 → ℚ) : (quantizeGrid g).length = 50 := by
  simp [quantizeGrid]

lemma quantizeGrid_row_length (g : Fin 50 → Fin 50 → ℚ) (r : Fin 50) :
    ((quantizeGrid g).getD r.1 []).length = 50 := by
  unfold quantizeGrid
  rw [getD_map_finRange]
  simp

/-- Every quantized sample is a uint8 value. -/
lemma toUInt8_le (q : ℚ) : toUInt8 q ≤ 255 := by
  unfold toUInt8
  have h1 : truncQ q % 256 < 256 := Int.emod_lt_of_pos _ (by norm_num)
  have h2 : 0 ≤ truncQ q % 256 := Int.emod_nonneg _ (by norm_num)
  omega

/-! ## Claim C1: which offsets the correlator computes, and what each equals -/

/-- C1 counterexample: the claim ranges the offsets `(r, c)` over
`0..(2M)` inclusive with `M = 25`, which would give the correlation surface
51 rows (and 51 columns); on a concrete pair of frames the surface the code
builds has exactly 50 rows, so no score is computed at row offset 50. -/
theorem c1_counterexample :
    (output_image (constFrame 0) (constFrame 0)).length = 50 ∧
      (output_image (constFrame 0) (constFrame 0)).length ≠ 51 := by
  constructor <;> simp [output_image]

/-- C1 (amended): the cross-correlator computes scores for `r` and `c`
ranging over `0..(2M-1)` inclusive (50 values, `M = 25`), and the score at
`(r, c)` is the sum, over all positions of the 110 x 110 template (the
current frame trimmed by 25 on each edge, after normalization), of the
elementwise product between the template and the window of the
zero-centered previous frame whose top-left corner is `(r, c)`. -/
theorem c1_correlation_scores (p c : Frame) :
    (output_image p c).length = 50 ∧
    (∀ r : Fin 50, ((output_image p c).getD r.1 []).length = 50) ∧
    (∀ r s : Fin 50, ((output_image p c).getD r.1 []).getD s.1 0 =
      ∑ i : Fin 110, ∑ j : Fin 110,
        convolutional_kernel p c i j *
          centered p (average_pixel_value p c)
            ⟨r.1 + i.1, by have := r.2; have := i.2; omega⟩
            ⟨s.1 + j.1, by have := s.2; have := j.2; omega⟩) := by
  refine ⟨by simp [output_image], fun r => ?_, fun r s => ?_⟩
  · unfold output_image
    rw [getD_map_finRange]
    simp
  · rw [output_image_getD]
    rfl

/-! ## Claim C5: the correlation sequence builder -/

lemma make_correlation_video_length (v : List Frame) :
    (make_correlation_video v).length = v.length - 1 := by
  induction v with
  | nil => rfl
  | cons x t ih =>
    cases t with
    | nil => rfl
    | cons y s =>
      simp only [make_correlation_video, List.length_cons] at ih ⊢
      omega

lemma make_correlation_video_getD (v : List Frame) (i : ℕ) (h : i + 1 < v.length) :
    (make_correlation_video v).getD i [] =
      correlate_adjacent_frames (v.getD i dfltFrame) (v.getD (i + 1) dfltFrame) := by
  induction v generalizing i with
  | nil => simp at h
  | cons x t ih =>
    cases t with
    | nil => simp at h
    | cons y s =>
      cases i with
      | zero => rfl
      | succ k =>
        have hk : k + 1 < (y :: s).length := by simpa using Nat.lt_of_succ_lt_succ h
        simpa [make_correlation_video, List.getD_cons_succ] using ih k hk

/-- C5: on an `N`-frame input the builder returns exactly `N - 1` correlation
frames, the `i`-th being the correlation of input frame `i` (as previous)
with input frame `i + 1` (as current), in input order; an input of fewer
than 2 frames yields the empty sequence. -/
theorem c5_builder (v : List Frame) (i : ℕ) (h : i + 1 < v.length) :
    (make_correlation_video v).length = v.length - 1 ∧
    make_correlation_video ([] : List Frame) = [] ∧
    (∀ f : Frame, make_correlation_video [f] = []) ∧
    (make_correlation_video v).getD i [] =
      correlate_adjacent_frames (v.getD i dfltFrame) (v.getD (i + 1) dfltFrame) :=
  ⟨make_correlation_video_length v, rfl, fun _ => rfl, make_correlation_video_getD v i h⟩

/-- C5 witness: the builder's indexing theorem at a concrete two-frame video. -/
theorem c5_witness :
    0 + 1 < vidEx.length ∧
    (make_correlation_video vidEx).getD 0 [] =
      correlate_adjacent_frames (vidEx.getD 0 dfltFrame) (vidEx.getD (0 + 1) dfltFrame) :=
  ⟨by decide, (c5_builder vidEx 0 (by decide)).2.2.2⟩

/-! ## Claim C6: output shape and sample range -/

/-- C6: for every pair of (160 x 160, uint8) frames, the correlator returns
a fixed-size 50 x 50 quantized grid whose every sample is an integer in
[0, 255]. -/
theorem c6_output_shape_and_range (p c : Frame) :
    (correlate_adjacent_frames p c).length = 50 ∧
    (∀ r : Fin 50, ((correlate_adjacent_frames p c).getD r.1 []).length = 50) ∧
    (∀ r s : Fin 50, entryAt (correlate_adjacent_frames p c) r.1 s.1 ≤ 255) := by
  refine ⟨quantizeGrid_length _, fun r => quantizeGrid_row_length _ r, fun r s => ?_⟩
  show entryAt (quantizeGrid (output_score p c)) r.1 s.1 ≤ 255
  rw [quantizeGrid_entry]
  exact toUInt8_le _

/-! ## Claim C2: scaling and the shared zero-centering scalar -/

/-- For equal-shaped frames the midpoint of the two per-frame means is the
mean of the pooled concatenated sample set. -/
lemma midpoint_eq_pooled (p c : Frame) : average_pixel_value p c = pooledMean p c := by
  unfold average_pixel_value pooledMean frameMean
  ring

lemma scale_nonneg (f : Frame) (i j : Fin 160) : 0 ≤ scale f i j := by
  unfold scale
  positivity

lemma scale_le_one (f : Frame) (i j : Fin 160) : scale f i j ≤ 1 := by
  unfold scale
  rw [div_le_one (by norm_num : (0:ℚ) < 255)]
  exact_mod_cast Nat.lt_succ_iff.mp (f i j).2

/-- C2 counterexample: the claim asserts the shared scalar is "not the mean
of the pooled concatenated sample set"; at this concrete pair of frames
(and in fact at every pair of equal-shaped frames) the scalar equals that
pooled mean, refuting the negative conjunct. -/
theorem c2_counterexample :
    average_pixel_value (constFrame 7) (constFrame 200) =
      pooledMean (constFrame 7) (constFrame 200) :=
  midpoint_eq_pooled _ _

/-- C2 (amended): both frames are scaled to [0, 1] and the same scalar is
subtracted from every sample of both; the scalar is the midpoint of the two
per-frame means, which for equal-shaped frames coincides with the mean of
the pooled concatenated sample set. -/
theorem c2_normalization (p c : Frame) :
    (∀ i j : Fin 160,
      0 ≤ scale p i j ∧ scale p i j ≤ 1 ∧ 0 ≤ scale c i j ∧ scale c i j ≤ 1) ∧
    average_pixel_value p c = (frameMean p + frameMean c) / 2 ∧
    average_pixel_value p c = pooledMean p c :=
  ⟨fun i j => ⟨scale_nonneg p i j, scale_le_one p i j, scale_nonneg c i j, scale_le_one c i j⟩,
    rfl, midpoint_eq_pooled p c⟩

/-! ## Claim C3: the turn-counting classification rule -/

/-- The code's comparison `sqrt((Δr)² + (Δc)²) > 20` is, over integer peak
coordinates, the comparison `(Δr)² + (Δc)² > 400`. -/
lemma dist_gt_iff (a b : ℕ × ℕ) :
    ((20 : ℝ) < Real.sqrt (((a.1 : ℝ) - (b.1 : ℝ)) ^ 2 + ((a.2 : ℝ) - (b.2 : ℝ)) ^ 2) ↔
      400 < distSq a b) := by
  have hcast : ((a.1 : ℝ) - (b.1 : ℝ)) ^ 2 + ((a.2 : ℝ) - (b.2 : ℝ)) ^ 2 =
      ((distSq a b : ℤ) : ℝ) := by
    unfold distSq
    push_cast
    ring
  rw [hcast, Real.lt_sqrt (by norm_num : (0:ℝ) ≤ 20),
    show ((20:ℝ) ^ 2 = ((400:ℤ) : ℝ)) by norm_num, Int.cast_lt]

/-- C3: one turn is counted for each frame after the first whose peak lies
at Euclidean distance strictly greater than 20 from the previous frame's
peak, the running previous location is updated on every frame regardless
(the recursion continues with the current peak), and the classification is
true iff the final count is exactly 2. -/
theorem c3_turn_counting :
    (∀ (p q : ℕ × ℕ) (rest : List (ℕ × ℕ)),
      countTurns p (q :: rest) =
        (if (20 : ℝ) < Real.sqrt (((p.1 : ℝ) - (q.1 : ℝ)) ^ 2 + ((p.2 : ℝ) - (q.2 : ℝ)) ^ 2)
          then 1 else 0) + countTurns q rest) ∧
    (∀ p : ℕ × ℕ, countTurns p [] = 0) ∧
    (∀ locs : List (ℕ × ℕ), is_triangular_from_peaks locs = true ↔ turnCount locs = 2) := by
  refine ⟨fun p q rest => ?_, fun p => rfl, fun locs => ?_⟩
  · show (if 400 < distSq p q then 1 else 0) + countTurns q rest = _
    congr 1
    exact if_congr (dist_gt_iff p q).symm rfl rfl
  · simp [is_triangular_from_peaks]

/-! ## Claim C9: constant-intensity frames (degenerate surface) -/

lemma frameMean_const (v : Fin 256) : frameMean (constFrame v) = ((v : ℕ) : ℚ) / 255 := by
  simp only [frameMean, scale, constFrame, Finset.sum_const, Finset.card_univ,
    Fintype.card_fin, nsmul_eq_mul]
  ring

lemma centered_const (v : Fin 256) (i j : Fin 160) :
    centered (constFrame v) (average_pixel_value (constFrame v) (constFrame v)) i j = 0 := by
  simp only [centered, average_pixel_value, frameMean_const, scale, constFrame]
  ring

lemma output_score_const (v : Fin 256) (r s : Fin 50) :
    output_score (constFrame v) (constFrame v) r s = 0 := by
  unfold output_score
  simp [centered_const]

/-- C9: on constant-intensity input frames the correlation surface is
degenerate (its maximum equals its minimum), and the correlator still
yields a well-defined quantized 50 x 50 frame of uint8 samples — the
division by zero in the rescale is total in this model, mirroring numpy's
non-raising float division. -/
theorem c9_degenerate_surface (v : Fin 256) :
    gridMax (output_score (constFrame v) (constFrame v)) =
      gridMin (output_score (constFrame v) (constFrame v)) ∧
    (correlate_adjacent_frames (constFrame v) (constFrame v)).length = 50 ∧
    ∀ r s : Fin 50,
      entryAt (correlate_adjacent_frames (constFrame v) (constFrame v)) r.1 s.1 ≤ 255 := by
  refine ⟨?_, quantizeGrid_length _, fun r s => ?_⟩
  · have h : (fun rc : Fin 50 × Fin 50 =>
        output_score (constFrame v) (constFrame v) rc.1 rc.2) = fun _ => (0:ℚ) :=
      funext fun rc => output_score_const v rc.1 rc.2
    unfold gridMax gridMin
    rw [h, Finset.sup'_const, Finset.inf'_const]
  · show entryAt (quantizeGrid _) r.1 s.1 ≤ 255
    rw [quantizeGrid_entry]
    exact toUInt8_le _

/-! ## Claims C4 and C10: the peak scan -/

/-- Characterization of the running-maximum fold: either nothing ever beat
the initial value (and every score is bounded by it), or the result is the
first element attaining the overall maximum — elements scanned before it
score strictly less, elements after it score no more. -/
lemma foldl_argmax_spec {α : Type} (f : α → ℕ) :
    ∀ (l : List α) (a0 : α) (v0 : ℕ),
      (l.foldl (fun acc q => if f q > acc.2 then (q, f q) else acc) (a0, v0) = (a0, v0) ∧
        ∀ q ∈ l, f q ≤ v0) ∨
      (∃ l1 x l2, l = l1 ++ x :: l2 ∧
        l.foldl (fun acc q => if f q > acc.2 then (q, f q) else acc) (a0, v0) = (x, f x) ∧
        v0 < f x ∧ (∀ q ∈ l1, f q < f x) ∧ (∀ q ∈ l2, f q ≤ f x)) := by
  intro l
  induction l with
  | nil => exact fun a0 v0 => Or.inl ⟨rfl, by simp⟩
  | cons x t ih =>
    intro a0 v0
    by_cases h : f x > v0
    · have hstep : (x :: t).foldl
          (fun acc q => if f q > acc.2 then (q, f q) else acc) (a0, v0) =
          t.foldl (fun acc q => if f q > acc.2 then (q, f q) else acc) (x, f x) := by
        rw [List.foldl_cons]
        congr 1
        exact if_pos h
      rcases ih x (f x) with ⟨heq, hall⟩ | ⟨l1, y, l2, hsplit, hres, hlt, hbef, haft⟩
      · exact Or.inr ⟨[], x, t, by simp, by rw [hstep, heq], h, by simp, hall⟩
      · refine Or.inr ⟨x :: l1, y, l2, by simp [hsplit], by rw [hstep, hres],
          lt_trans h hlt, ?_, haft⟩
        intro q hq
        rcases List.mem_cons.mp hq with rfl | hq'
        · exact hlt
        · exact hbef q hq'
    · have hstep : (x :: t).foldl
          (fun acc q => if f q > acc.2 then (q, f q) else acc) (a0, v0) =
          t.foldl (fun acc q => if f q > acc.2 then (q, f q) else acc) (a0, v0) := by
        rw [List.foldl_cons]
        congr 1
        exact if_neg h
      push_neg at h
      rcases ih a0 v0 with ⟨heq, hall⟩ | ⟨l1, y, l2, hsplit, hres, hlt, hbef, haft⟩
      · refine Or.inl ⟨by rw [hstep, heq], ?_⟩
        intro q hq
        rcases List.mem_cons.mp hq with rfl | hq'
        · exact h
        · exact hall q hq'
      · refine Or.inr ⟨x :: l1, y, l2, by simp [hsplit], by rw [hstep, hres], hlt, ?_, haft⟩
        intro q hq
        rcases List.mem_cons.mp hq with rfl | hq'
        · exact lt_of_le_of_lt h hlt
        · exact hbef q hq'

/-- The candidate corners are exactly the stride-4 grid points `(a*4, b*4)`
with `a, b ≤ 12` (the stride-4 values in the range [0, 50]). -/
lemma mem_candList_iff (q : ℕ × ℕ) :
    q ∈ candList ↔ ∃ a ≤ 12, ∃ b ≤ 12, q = (a * 4, b * 4) := by
  unfold candList
  constructor
  · intro hq
    rcases List.mem_flatMap.mp hq with ⟨r, hr, hq2⟩
    rcases List.mem_map.mp hr with ⟨a, ha, rfl⟩
    rcases List.mem_map.mp hq2 with ⟨c, hc, rfl⟩
    rcases List.mem_map.mp hc with ⟨b, hb, rfl⟩
    exact ⟨a, by have := List.mem_range.mp ha; omega, b,
      by have := List.mem_range.mp hb; omega, rfl⟩
  · rintro ⟨a, ha, b, hb, rfl⟩
    refine List.mem_flatMap.mpr ⟨a * 4,
      List.mem_map.mpr ⟨a, List.mem_range.mpr (by omega), rfl⟩, ?_⟩
    exact List.mem_map.mpr ⟨b * 4,
      List.mem_map.mpr ⟨b, List.mem_range.mpr (by omega), rfl⟩, rfl⟩

/-- The peak the scan returns is a candidate, its block sum dominates every
candidate's, and every candidate scanned before it has a strictly smaller
block sum (so ties keep the earliest-found location). -/
lemma scanPeak_spec (g : List (List ℕ)) :
    peak_of_frame g ∈ candList ∧
    (∀ q ∈ candList,
      blockSum g q.1 q.2 ≤ blockSum g (peak_of_frame g).1 (peak_of_frame g).2) ∧
    (∃ l1 l2, candList = l1 ++ peak_of_frame g :: l2 ∧
      ∀ q ∈ l1, blockSum g q.1 q.2 < blockSum g (peak_of_frame g).1 (peak_of_frame g).2) := by
  have H := foldl_argmax_spec (fun q : ℕ × ℕ => blockSum g q.1 q.2) candList (0, 0) 0
  rcases H with ⟨heq, hall⟩ | ⟨l1, x, l2, hsplit, hres, hlt, hbef, haft⟩
  · have hres' : scanPeak g = ((0, 0), 0) := heq
    have hpk : peak_of_frame g = (0, 0) := congrArg Prod.fst hres'
    have hmem : ((0, 0) : ℕ × ℕ) ∈ candList := by decide
    have hzero : blockSum g 0 0 = 0 :=
      Nat.le_antisymm (hall (0, 0) hmem) (Nat.zero_le _)
    refine ⟨hpk ▸ hmem, ?_, ?_⟩
    · intro q hq
      rw [hpk]
      exact le_trans (hall q hq) (by simp [hzero])
    · refine ⟨[], candList.tail, ?_, by simp⟩
      rw [hpk]
      rfl
  · have hres' : scanPeak g = (x, blockSum g x.1 x.2) := hres
    have hpk : peak_of_frame g = x := congrArg Prod.fst hres'
    have hxmem : x ∈ candList := hsplit ▸ List.mem_append_right l1 (List.mem_cons_self x l2)
    refine ⟨hpk ▸ hxmem, ?_, ⟨l1, l2, by rw [hpk]; exact hsplit, ?_⟩⟩
    · intro q hq
      rw [hpk]
      rw [hsplit] at hq
      rcases List.mem_append.mp hq with hq1 | hq2
      · exact le_of_lt (hbef q hq1)
      · rcases List.mem_cons.mp hq2 with rfl | hq3
        · exact le_refl _
        · exact haft q hq3
    · intro q hq
      rw [hpk]
      exact hbef q hq

/-- C4: the peak of one correlation frame is found by scanning candidate
top-left corners at stride 4 over the coordinate range [0, 50] in each axis
(the candidates are exactly the `(a*4, b*4)` with `a, b ≤ 12`), summing the
2 x 2 block at each candidate, and keeping the location with the strictly
greatest sum; ties keep the earliest-found location, and the running
maximum starts at baseline 0 with initial location (0, 0). -/
theorem c4_peak_scan (g : List (List ℕ)) :
    (∀ q : ℕ × ℕ, q ∈ candList ↔ ∃ a ≤ 12, ∃ b ≤ 12, q = (a * 4, b * 4)) ∧
    peak_of_frame g ∈ candList ∧
    (∀ q ∈ candList,
      blockSum g q.1 q.2 ≤ blockSum g (peak_of_frame g).1 (peak_of_frame g).2) ∧
    (∃ l1 l2, candList = l1 ++ peak_of_frame g :: l2 ∧
      ∀ q ∈ l1, blockSum g q.1 q.2 < blockSum g (peak_of_frame g).1 (peak_of_frame g).2) :=
  ⟨mem_candList_iff, (scanPeak_spec g).1, (scanPeak_spec g).2.1, (scanPeak_spec g).2.2⟩

lemma sq_diff_le (x y : ℕ) (hx : x ≤ 48) (hy : y ≤ 48) :
    ((x : ℤ) - (y : ℤ)) ^ 2 ≤ 2304 := by
  have h1 : (0 : ℤ) ≤ 48 - ((x : ℤ) - (y : ℤ)) := by omega
  have h2 : (0 : ℤ) ≤ 48 + ((x : ℤ) - (y : ℤ)) := by omega
  nlinarith [mul_nonneg h1 h2]

/-- C10: every peak location the scan can produce has both coordinates
multiples of 4 in [0, 48], and hence the squared distance between any two
peak locations is at most 48² + 48² = 4608 (bounding every inter-frame
peak distance compared against the threshold 20). -/
theorem c10_peak_grid_invariant (g h : List (List ℕ)) :
    4 ∣ (peak_of_frame g).1 ∧ (peak_of_frame g).1 ≤ 48 ∧
    4 ∣ (peak_of_frame g).2 ∧ (peak_of_frame g).2 ≤ 48 ∧
    distSq (peak_of_frame g) (peak_of_frame h) ≤ 4608 := by
  have hg := (mem_candList_iff (peak_of_frame g)).mp (scanPeak_spec g).1
  have hh := (mem_candList_iff (peak_of_frame h)).mp (scanPeak_spec h).1
  rcases hg with ⟨a, ha, b, hb, hgeq⟩
  rcases hh with ⟨a', ha', b', hb', hheq⟩
  have h1 : (peak_of_frame g).1 = a * 4 := by rw [hgeq]
  have h2 : (peak_of_frame g).2 = b * 4 := by rw [hgeq]
  have h3 : (peak_of_frame h).1 = a' * 4 := by rw [hheq]
  have h4 : (peak_of_frame h).2 = b' * 4 := by rw [hheq]
  refine ⟨by omega, by omega, by omega, by omega, ?_⟩
  unfold distSq
  have hb1 := sq_diff_le (peak_of_frame g).1 (peak_of_frame h).1 (by omega) (by omega)
  have hb2 := sq_diff_le (peak_of_frame g).2 (peak_of_frame h).2 (by omega) (by omega)
  omega

/-! ## Claim C7: the rescale maps the surface onto the full [0, 255] range -/

lemma toUInt8_zeroQ : toUInt8 0 = 0 := by
  rw [toUInt8, truncQ, if_pos (by norm_num : (0:ℚ) ≤ 0), Int.floor_zero]
  decide

lemma toUInt8_255Q : toUInt8 255 = 255 := by
  rw [toUInt8, truncQ, if_pos (by norm_num : (0:ℚ) ≤ 255),
    show ((255:ℚ) = ((255:ℤ) : ℚ)) by norm_num, Int.floor_intCast]
  decide

/-- C7: whenever the correlation surface is non-degenerate (its maximum
differs from its minimum before quantization), the quantized output of the
rescale `(value - min) * 255 / (max - min)`, truncated to uint8, attains
minimum sample exactly 0 and maximum sample exactly 255. -/
theorem c7_rescale_extremes (g : Fin 50 → Fin 50 → ℚ) (hne : gridMax g ≠ gridMin g) :
    (∃ r s : Fin 50, entryAt (quantizeGrid g) r.1 s.1 = 0) ∧
    (∃ r s : Fin 50, entryAt (quantizeGrid g) r.1 s.1 = 255) ∧
    (∀ r s : Fin 50, entryAt (quantizeGrid g) r.1 s.1 ≤ 255) := by
  have hΔ : gridMax g - gridMin g ≠ 0 := sub_ne_zero_of_ne hne
  refine ⟨?_, ?_, fun r s => by rw [quantizeGrid_entry]; exact toUInt8_le _⟩
  · obtain ⟨rc, _, hrc⟩ := Finset.exists_mem_eq_inf' Finset.univ_nonempty
      (fun rc : Fin 50 × Fin 50 => g rc.1 rc.2)
    refine ⟨rc.1, rc.2, ?_⟩
    rw [quantizeGrid_entry]
    have hv : g rc.1 rc.2 = gridMin g := hrc.symm
    rw [hv, rescaleQ, sub_self, zero_mul, zero_div]
    exact toUInt8_zeroQ
  · obtain ⟨rc, _, hrc⟩ := Finset.exists_mem_eq_sup' Finset.univ_nonempty
      (fun rc : Fin 50 × Fin 50 => g rc.1 rc.2)
    refine ⟨rc.1, rc.2, ?_⟩
    rw [quantizeGrid_entry]
    have hv : g rc.1 rc.2 = gridMax g := hrc.symm
    rw [hv, rescaleQ, mul_comm, mul_div_assoc, div_self hΔ, mul_one]
    exact toUInt8_255Q

/-- The concrete grid `exGrid` is non-degenerate. -/
lemma exGrid_nondeg : gridMax exGrid ≠ gridMin exGrid := by
  have h1 : exGrid 0 0 ≤ gridMax exGrid :=
    Finset.le_sup' (fun rc : Fin 50 × Fin 50 => exGrid rc.1 rc.2)
      (Finset.mem_univ ((0, 0) : Fin 50 × Fin 50))
  have h2 : gridMin exGrid ≤ exGrid 1 0 :=
    Finset.inf'_le (fun rc : Fin 50 × Fin 50 => exGrid rc.1 rc.2)
      (Finset.mem_univ ((1, 0) : Fin 50 × Fin 50))
  have e1 : exGrid 0 0 = 255 := by decide
  have e2 : exGrid 1 0 = 0 := by decide
  intro heq
  rw [e1] at h1
  rw [e2] at h2
  rw [heq] at h1
  linarith

/-- C7 witness: the extremes theorem applied to the concrete non-degenerate
grid `exGrid`. -/
theorem c7_witness :
    gridMax exGrid ≠ gridMin exGrid ∧
    ((∃ r s : Fin 50, entryAt (quantizeGrid exGrid) r.1 s.1 = 0) ∧
     (∃ r s : Fin 50, entryAt (quantizeGrid exGrid) r.1 s.1 = 255) ∧
     (∀ r s : Fin 50, entryAt (quantizeGrid exGrid) r.1 s.1 ≤ 255)) :=
  ⟨exGrid_nondeg, c7_rescale_extremes exGrid exGrid_nondeg⟩

/-! ## Claim C8: correlating a frame with itself -/

/-- C8 (amended): correlating a frame `F` with itself gives, at the
geometric center offset (25, 25), the score `∑ (template entry)²` — the
template perfectly aligned with its source region — which is in particular
nonnegative; the counterexample shows this offset need not carry the
maximum score. -/
theorem c8_center_score (F : Frame) :
    output_score F F 25 25 =
      (∑ i : Fin 110, ∑ j : Fin 110,
        convolutional_kernel F F i j * convolutional_kernel F F i j) ∧
    0 ≤ output_score F F 25 25 := by
  have heq : output_score F F 25 25 =
      ∑ i : Fin 110, ∑ j : Fin 110,
        convolutional_kernel F F i j * convolutional_kernel F F i j := rfl
  refine ⟨heq, ?_⟩
  rw [heq]
  exact Finset.sum_nonneg fun i _ =>
    Finset.sum_nonneg fun j _ => mul_self_nonneg _

/-! ## Claim C8 counterexample: concrete sums over the two-pixel frame -/

/-- Single-sample double sum: only the grid point `(a, b)` contributes. -/
lemma sum_ite_val {n : ℕ} (b : ℕ) (hb : b < n) (v : ℚ) :
    (∑ j : Fin n, if j.1 = b then v else 0) = v := by
  have h : ∀ j : Fin n, (if j.1 = b then v else 0) = (if j = ⟨b, hb⟩ then v else 0) :=
    fun j => if_congr ⟨fun h => Fin.ext h, fun h => by rw [h]⟩ rfl rfl
  rw [Finset.sum_congr rfl fun j _ => h j,
    Finset.sum_ite_eq' Finset.univ (⟨b, hb⟩ : Fin n) fun _ => v]
  simp

lemma sum_ite_point {n : ℕ} (a b : ℕ) (ha : a < n) (hb : b < n) (v : ℚ) :
    (∑ i : Fin n, ∑ j : Fin n, if i.1 = a ∧ j.1 = b then v else 0) = v := by
  have hrow : ∀ i : Fin n,
      (∑ j : Fin n, if i.1 = a ∧ j.1 = b then v else 0) = if i.1 = a then v else 0 := by
    intro i
    by_cases hi : i.1 = a
    · simp only [hi, true_and]
      exact sum_ite_val b hb v
    · simp [hi]
  rw [Finset.sum_congr rfl fun i _ => hrow i]
  exact sum_ite_val a ha v

/-- Double sum of a one-point pattern over an otherwise constant grid. -/
lemma sum_ite_point_const {n : ℕ} (a b : ℕ) (ha : a < n) (hb : b < n) (v w : ℚ) :
    (∑ i : Fin n, ∑ j : Fin n, if i.1 = a ∧ j.1 = b then v else w) =
      v + ((n : ℚ) * n - 1) * w := by
  have h : ∀ i j : Fin n, (if i.1 = a ∧ j.1 = b then v else w) =
      w + (if i.1 = a ∧ j.1 = b then v - w else 0) := by
    intro i j
    split_ifs <;> ring
  rw [Finset.sum_congr rfl fun i _ => Finset.sum_congr rfl fun j _ => h i j]
  simp only [Finset.sum_add_distrib, Finset.sum_const, Finset.card_univ, Fintype.card_fin,
    nsmul_eq_mul]
  rw [sum_ite_point a b ha hb (v - w)]
  ring

/-- Double sum of a two-point pattern over an otherwise constant grid. -/
lemma sum_ite_two_point {n : ℕ} (a1 b1 a2 b2 : ℕ) (ha1 : a1 < n) (hb1 : b1 < n)
    (ha2 : a2 < n) (hb2 : b2 < n) (hne : ¬(a1 = a2 ∧ b1 = b2)) (v1 v2 w : ℚ) :
    (∑ i : Fin n, ∑ j : Fin n,
      if i.1 = a1 ∧ j.1 = b1 then v1 else if i.1 = a2 ∧ j.1 = b2 then v2 else w) =
      v1 + v2 + ((n : ℚ) * n - 2) * w := by
  have h : ∀ i j : Fin n,
      (if i.1 = a1 ∧ j.1 = b1 then v1 else if i.1 = a2 ∧ j.1 = b2 then v2 else w) =
      w + (if i.1 = a1 ∧ j.1 = b1 then v1 - w else 0) +
        (if i.1 = a2 ∧ j.1 = b2 then v2 - w else 0) := by
    intro i j
    by_cases c1 : i.1 = a1 ∧ j.1 = b1
    · rw [if_pos c1, if_pos c1,
        if_neg (fun c2 => hne ⟨c1.1.symm.trans c2.1, c1.2.symm.trans c2.2⟩)]
      ring
    · rw [if_neg c1, if_neg c1]
      by_cases c2 : i.1 = a2 ∧ j.1 = b2
      · rw [if_pos c2, if_pos c2]
        ring
      · rw [if_neg c2, if_neg c2]
        ring
  rw [Finset.sum_congr rfl fun i _ => Finset.sum_congr rfl fun j _ => h i j]
  simp only [Finset.sum_add_distrib, Finset.sum_const, Finset.card_univ, Fintype.card_fin,
    nsmul_eq_mul]
  rw [sum_ite_point a1 b1 ha1 hb1 (v1 - w), sum_ite_point a2 b2 ha2 hb2 (v2 - w)]
  ring

/-- The scaled two-pixel frame, case by case. -/
lemma scale_ex (i j : Fin 160) :
    scale exFrame i j =
      (if i.1 = 0 ∧ j.1 = 0 then (1:ℚ) else 0) +
        (if i.1 = 25 ∧ j.1 = 25 then (1:ℚ)/255 else 0) := by
  unfold scale exFrame
  by_cases h1 : i.1 = 0 ∧ j.1 = 0
  · rw [if_pos h1, if_pos h1, if_neg (by omega)]
    show ((255:ℕ) : ℚ) / 255 = 1 + 0
    norm_num
  · rw [if_neg h1, if_neg h1]
    by_cases h2 : i.1 = 25 ∧ j.1 = 25
    · rw [if_pos h2, if_pos h2]
      show ((1:ℕ) : ℚ) / 255 = 0 + 1 / 255
      norm_num
    · rw [if_neg h2, if_neg h2]
      show ((0:ℕ) : ℚ) / 255 = 0 + 0
      norm_num

lemma frameMean_ex : frameMean exFrame = 1 / 25500 := by
  unfold frameMean
  rw [Finset.sum_congr rfl fun i _ => Finset.sum_congr rfl fun j _ => scale_ex i j]
  rw [Finset.sum_congr rfl fun i _ => Finset.sum_add_distrib, Finset.sum_add_distrib,
    sum_ite_point 0 0 (by norm_num) (by norm_num) 1,
    sum_ite_point 25 25 (by norm_num) (by norm_num) (1/255)]
  norm_num

lemma avg_ex : average_pixel_value exFrame exFrame = 1 / 25500 := by
  unfold average_pixel_value
  rw [frameMean_ex]
  norm_num

/-- The zero-centered two-pixel frame, case by case. -/
lemma centered_ex (x y : Fin 160) :
    centered exFrame (average_pixel_value exFrame exFrame) x y =
      if x.1 = 0 ∧ y.1 = 0 then 25499/25500
      else if x.1 = 25 ∧ y.1 = 25 then 99/25500
      else -1/25500 := by
  rw [centered, avg_ex, scale_ex]
  by_cases h1 : x.1 = 0 ∧ y.1 = 0
  · obtain ⟨hx, hy⟩ := h1
    rw [hx, hy]
    norm_num
  · by_cases h2 : x.1 = 25 ∧ y.1 = 25
    · obtain ⟨hx, hy⟩ := h2
      rw [hx, hy]
      norm_num
    · rw [if_neg h1, if_neg h1, if_neg h2, if_neg h2]
      norm_num

/-- The kernel of the two-pixel frame: the bright corner pixel lies outside
the template, so only the (25, 25) pixel survives (at kernel index (0, 0)). -/
lemma kernel_ex (i j : Fin 110) :
    convolutional_kernel exFrame exFrame i j =
      if i.1 = 0 ∧ j.1 = 0 then (99:ℚ)/25500 else -1/25500 := by
  unfold convolutional_kernel
  rw [centered_ex]
  show (if 25 + i.1 = 0 ∧ 25 + j.1 = 0 then (25499:ℚ)/25500
      else if 25 + i.1 = 25 ∧ 25 + j.1 = 25 then 99/25500 else -1/25500) =
    if i.1 = 0 ∧ j.1 = 0 then (99:ℚ)/25500 else -1/25500
  rw [if_neg (fun h => by omega : ¬(25 + i.1 = 0 ∧ 25 + j.1 = 0)),
    if_congr (show (25 + i.1 = 25 ∧ 25 + j.1 = 25) ↔ (i.1 = 0 ∧ j.1 = 0) from
      ⟨fun h => ⟨by omega, by omega⟩, fun h => ⟨by omega, by omega⟩⟩) rfl rfl]

lemma score_center_ex : output_score exFrame exFrame 25 25 = 21900 / 650250000 := by
  have hsummand : ∀ i j : Fin 110,
      convolutional_kernel exFrame exFrame i j *
        centered exFrame (average_pixel_value exFrame exFrame)
          ⟨25 + i.1, by have := i.2; omega⟩ ⟨25 + j.1, by have := j.2; omega⟩ =
      (if i.1 = 0 ∧ j.1 = 0 then (9801:ℚ)/650250000 else 1/650250000) := by
    intro i j
    rw [kernel_ex, centered_ex]
    show (if i.1 = 0 ∧ j.1 = 0 then (99:ℚ)/25500 else -1/25500) *
        (if 25 + i.1 = 0 ∧ 25 + j.1 = 0 then (25499:ℚ)/25500
          else if 25 + i.1 = 25 ∧ 25 + j.1 = 25 then 99/25500 else -1/25500) = _
    rw [if_neg (fun h => by omega : ¬(25 + i.1 = 0 ∧ 25 + j.1 = 0)),
      if_congr (show (25 + i.1 = 25 ∧ 25 + j.1 = 25) ↔ (i.1 = 0 ∧ j.1 = 0) from
        ⟨fun h => ⟨by omega, by omega⟩, fun h => ⟨by omega, by omega⟩⟩) rfl rfl]
    split_ifs <;> norm_num
  have hstep : output_score exFrame exFrame 25 25 =
      ∑ i : Fin 110, ∑ j : Fin 110,
        (if i.1 = 0 ∧ j.1 = 0 then (9801:ℚ)/650250000 else 1/650250000) := by
    show (∑ i : Fin 110, ∑ j : Fin 110,
        convolutional_kernel exFrame exFrame i j *
          centered exFrame (average_pixel_value exFrame exFrame)
            ⟨25 + i.1, by have := i.2; omega⟩ ⟨25 + j.1, by have := j.2; omega⟩) = _
    exact Finset.sum_congr rfl fun i _ => Finset.sum_congr rfl fun j _ => hsummand i j
  rw [hstep, sum_ite_point_const 0 0 (by norm_num) (by norm_num) _ _]
  norm_num

lemma score_corner_ex : output_score exFrame exFrame 0 0 = 2536400 / 650250000 := by
  have hsummand : ∀ i j : Fin 110,
      convolutional_kernel exFrame exFrame i j *
        centered exFrame (average_pixel_value exFrame exFrame)
          ⟨0 + i.1, by have := i.2; omega⟩ ⟨0 + j.1, by have := j.2; omega⟩ =
      (if i.1 = 0 ∧ j.1 = 0 then (2524401:ℚ)/650250000
        else if i.1 = 25 ∧ j.1 = 25 then -99/650250000 else 1/650250000) := by
    intro i j
    rw [kernel_ex, centered_ex]
    show (if i.1 = 0 ∧ j.1 = 0 then (99:ℚ)/25500 else -1/25500) *
        (if 0 + i.1 = 0 ∧ 0 + j.1 = 0 then (25499:ℚ)/25500
          else if 0 + i.1 = 25 ∧ 0 + j.1 = 25 then 99/25500 else -1/25500) = _
    rw [if_congr (show (0 + i.1 = 0 ∧ 0 + j.1 = 0) ↔ (i.1 = 0 ∧ j.1 = 0) from
        ⟨fun h => ⟨by omega, by omega⟩, fun h => ⟨by omega, by omega⟩⟩) rfl rfl,
      if_congr (show (0 + i.1 = 25 ∧ 0 + j.1 = 25) ↔ (i.1 = 25 ∧ j.1 = 25) from
        ⟨fun h => ⟨by omega, by omega⟩, fun h => ⟨by omega, by omega⟩⟩) rfl rfl]
    split_ifs with d1 d2
    · norm_num
    · norm_num
    · norm_num
  have hstep : output_score exFrame exFrame 0 0 =
      ∑ i : Fin 110, ∑ j : Fin 110,
        (if i.1 = 0 ∧ j.1 = 0 then (2524401:ℚ)/650250000
          else if i.1 = 25 ∧ j.1 = 25 then -99/650250000 else 1/650250000) := by
    show (∑ i : Fin 110, ∑ j : Fin 110,
        convolutional_kernel exFrame exFrame i j *
          centered exFrame (average_pixel_value exFrame exFrame)
            ⟨0 + i.1, by have := i.2; omega⟩ ⟨0 + j.1, by have := j.2; omega⟩) = _
    exact Finset.sum_congr rfl fun i _ => Finset.sum_congr rfl fun j _ => hsummand i j
  rw [hstep, sum_ite_two_point 0 0 25 25 (by norm_num) (by norm_num) (by norm_num)
    (by norm_num) (by omega) _ _ _]
  norm_num

/-- C8 counterexample: for the concrete two-pixel frame, the self-correlation
surface scores strictly more at offset (0, 0) than at the geometric center
offset (25, 25), so (25, 25) is not the maximum-scoring offset. -/
theorem c8_counterexample :
    output_score exFrame exFrame 25 25 < output_score exFrame exFrame 0 0 := by
  rw [score_center_ex, score_corner_ex]
  norm_num
